import Mathlib

/-!
Verification development for the videocutter repository.

The Python sources under src/ are shallowly embedded below:

* csv_manager.py     : the label ledger, a CSV file modelled as a list of
  rows, each row a list of string fields (the csv codec of the standard
  library is assumed to round-trip fields losslessly).
* clip_extractor.py  : ffmpeg-based clip extraction; the external world
  (ffmpeg presence, directory creation, subprocess outcomes, existing
  files) is an explicit environment value.
* video_scanner.py   : recursive directory scan; the filesystem walk is a
  list of file records in arbitrary iteration order.
* app.py             : the segment-selection state machine and the
  labeling handlers of the main window, as explicit state passing.

Python integers are Int, millisecond positions are Int, fallible Python
code returns Except.  Python builtins used by the sources (str on ints,
int on strings, str.split, os.path.normpath, pathlib stem and suffix,
str.lower, sorted) are modelled by executable definitions that follow the
documented CPython behaviour on the inputs that occur here.
-/

namespace Videocutter

/-! ### Decimal rendering and parsing, modelling the Python builtins str and int -/

/-- Decimal digit character for a value below ten. -/
def digitChar (n : Nat) : Char := Char.ofNat (48 + n)

/-- Little-endian decimal digits of a natural number.  The explicit fuel
keeps the definition structural; fuel n + 1 always suffices. -/
def natDigitsRev (fuel n : Nat) : List Char :=
  match fuel with
  | 0 => []
  | fuel + 1 =>
    if n < 10 then [digitChar n] else digitChar (n % 10) :: natDigitsRev fuel (n / 10)

/-- Decimal string of a natural number, as the Python builtin str yields. -/
def natStr (n : Nat) : String := ⟨(natDigitsRev (n + 1) n).reverse⟩

/-- Decimal string of an integer, as the Python builtin str yields. -/
def intStr (i : Int) : String :=
  if i < 0 then "-" ++ natStr i.natAbs else natStr i.toNat

/-- Whether a character is a decimal digit. -/
def isDigitChar (c : Char) : Bool := decide (48 ≤ c.toNat) && decide (c.toNat ≤ 57)

/-- Value of a big-endian digit list. -/
def digitsVal (cs : List Char) : Nat := cs.foldl (fun a c => 10 * a + (c.toNat - 48)) 0

/-- Model of the Python builtin int applied to a string: an optional sign
followed by a nonempty run of decimal digits parses, anything else raises
ValueError (here: none). -/
def pyInt (s : String) : Option Int :=
  match s.data with
  | [] => none
  | c :: cs =>
    if c = '-' then
      if !cs.isEmpty && cs.all isDigitChar then some (-(digitsVal cs : Nat)) else none
    else if c = '+' then
      if !cs.isEmpty && cs.all isDigitChar then some ((digitsVal cs : Nat) : Int) else none
    else if (c :: cs).all isDigitChar then some ((digitsVal (c :: cs) : Nat) : Int) else none

/-! ### Path helpers, modelling str.split, pathlib stem and suffix, os.path.normpath -/

/-- Model of the Python str.split with a one-character separator. -/
def splitOnChar (sep : Char) : List Char → List (List Char)
  | [] => [[]]
  | c :: cs =>
    let rest := splitOnChar sep cs
    if c = sep then [] :: rest
    else
      match rest with
      | [] => [[c]]
      | h :: t => (c :: h) :: t

/-- Final path component (the part after the last slash). -/
def lastComponent (cs : List Char) : List Char := (splitOnChar '/' cs).getLastD []

/-- Index of the last occurrence of a character, as the Python str.rfind. -/
def lastIdxOf (target : Char) : List Char → Option Nat
  | [] => none
  | c :: cs =>
    match lastIdxOf target cs with
    | some i => some (i + 1)
    | none => if c = target then some 0 else none

/-- Model of pathlib PurePath.suffix: the extension of the final component,
where the last dot must be neither the first nor the last character. -/
def path_suffix (p : String) : String :=
  let nm := lastComponent p.data
  match lastIdxOf '.' nm with
  | some i => if 0 < i ∧ i < nm.length - 1 then ⟨nm.drop i⟩ else ""
  | none => ""

/-- Model of pathlib PurePath.stem: the final component without its suffix. -/
def path_stem (p : String) : String :=
  let nm := lastComponent p.data
  match lastIdxOf '.' nm with
  | some i => if 0 < i ∧ i < nm.length - 1 then ⟨nm.take i⟩ else ⟨nm⟩
  | none => ⟨nm⟩

/-- Model of os.path.normpath for POSIX paths, following the CPython
implementation: collapse repeated separators, drop single dots, resolve
double dots where possible, keep the special double-slash root. -/
def normpath (path : String) : String :=
  if path = "" then "." else
  let cs := path.data
  let initialSlashes : Nat :=
    match cs with
    | '/' :: '/' :: '/' :: _ => 1
    | '/' :: '/' :: _ => 2
    | '/' :: _ => 1
    | _ => 0
  let comps := splitOnChar '/' cs
  let newComps := comps.foldl
    (fun acc comp =>
      if comp = [] ∨ comp = ['.'] then acc
      else if comp ≠ ['.', '.'] ∨ (initialSlashes = 0 ∧ acc = []) ∨
          acc.getLastD [] = ['.', '.'] then acc ++ [comp]
      else acc.dropLast)
    []
  let joined := List.replicate initialSlashes '/' ++ List.intercalate ['/'] newComps
  if joined = [] then "." else ⟨joined⟩

/-- Model of the Python str.lower on ASCII strings. -/
def lowerStr (s : String) : String := ⟨s.data.map Char.toLower⟩

/-! ### Lexicographic string order, modelling Python string comparison -/

/-- Lexicographic comparison of character lists by code point. -/
def charListLe : List Char → List Char → Bool
  | [], _ => true
  | _ :: _, [] => false
  | a :: as, b :: bs => if a = b then charListLe as bs else decide (a < b)

/-- Lexicographic order on strings by code point, as Python sorted uses. -/
def pyStrLe (a b : String) : Prop := charListLe a.data b.data = true

instance : DecidableRel pyStrLe := fun a b =>
  inferInstanceAs (Decidable (charListLe a.data b.data = true))

instance : IsTotal String pyStrLe := by
  suffices h : ∀ as bs : List Char, charListLe as bs = true ∨ charListLe bs as = true by
    exact ⟨fun x y => h x.data y.data⟩
  intro as
  induction as with
  | nil => intro bs; left; rfl
  | cons a as ih =>
    intro bs
    cases bs with
    | nil => right; rfl
    | cons b bs =>
      by_cases hab : a = b
      · subst hab
        rcases ih bs with h | h
        · left; simpa [charListLe] using h
        · right; simpa [charListLe] using h
      · rcases lt_or_gt_of_ne hab with h | h
        · left; simp [charListLe, hab, h]
        · right; simp [charListLe, Ne.symm hab, h]

instance : IsTrans String pyStrLe := by
  suffices h : ∀ as bs cs : List Char, charListLe as bs = true → charListLe bs cs = true →
      charListLe as cs = true by
    exact ⟨fun x y z h1 h2 => h x.data y.data z.data h1 h2⟩
  intro as
  induction as with
  | nil => intro bs cs _ _; rfl
  | cons a as ih =>
    intro bs cs h1 h2
    cases bs with
    | nil => simp [charListLe] at h1
    | cons b bs =>
      cases cs with
      | nil => simp [charListLe] at h2
      | cons c cs =>
        by_cases hab : a = b <;> by_cases hbc : b = c
        · subst hab; subst hbc
          simp only [charListLe, if_pos rfl] at h1 h2 ⊢
          exact ih _ _ h1 h2
        · subst hab
          simp only [charListLe, if_pos rfl] at h1
          simpa [charListLe, hbc] using h2
        · subst hbc
          simpa [charListLe, hab] using h1
        · have h3 : a < b := by simpa [charListLe, hab] using h1
          have h4 : b < c := by simpa [charListLe, hbc] using h2
          have hac : a < c := lt_trans h3 h4
          simp [charListLe, ne_of_lt hac, hac]

instance : IsAntisymm String pyStrLe := by
  suffices h : ∀ as bs : List Char, charListLe as bs = true → charListLe bs as = true →
      as = bs by
    refine ⟨fun x y h1 h2 => ?_⟩
    cases x with
    | mk dx =>
      cases y with
      | mk dy => exact congrArg String.mk (h dx dy h1 h2)
  intro as
  induction as with
  | nil =>
    intro bs _ h2
    cases bs with
    | nil => rfl
    | cons b bs => simp [charListLe] at h2
  | cons a as ih =>
    intro bs h1 h2
    cases bs with
    | nil => simp [charListLe] at h1
    | cons b bs =>
      by_cases hab : a = b
      · subst hab
        simp only [charListLe, if_pos rfl] at h1 h2
        rw [ih _ h1 h2]
      · have h3 : a < b := by simpa [charListLe, hab] using h1
        have h4 : b < a := by simpa [charListLe, Ne.symm hab] using h2
        exact absurd (lt_trans h3 h4) (lt_irrefl a)

instance : IsRefl String pyStrLe := by
  refine ⟨fun a => ?_⟩
  have h : ∀ cs : List Char, charListLe cs cs = true := by
    intro cs; induction cs with
    | nil => rfl
    | cons c cs ih => simpa [charListLe] using ih
  exact h a.data


/-! ### csv_manager.py: the label ledger

The backing CSV file is modelled as a list of rows, each row a list of
string fields; the csv codec of the Python standard library is assumed to
round-trip fields losslessly, so append order equals row order. -/

/-- A stored row: the list of string fields of one CSV record. -/
abbrev Row := List String

/-- A parsed ledger entry: video path, integer label, optional output path. -/
abbrev Entry := String × Int × Option String

/-- CSVManager._append_row: append one row holding the video path, the label
rendered by str, and the output path. -/
def append_row (rows : List Row) (video_path : String) (label : Int)
    (output_path : String) : List Row :=
  rows ++ [[video_path, intStr label, output_path]]

/-- CSVManager.write_pass. -/
def write_pass (rows : List Row) (video_path : String) : List Row :=
  append_row rows video_path 1 ""

/-- CSVManager.write_fail. -/
def write_fail (rows : List Row) (video_path clip_path : String) : List Row :=
  append_row rows video_path 0 clip_path

/-- CSVManager.write_uncertain (the method itself; its single parameter
besides self is the video path). -/
def write_uncertain (rows : List Row) (video_path : String) : List Row :=
  append_row rows video_path 2 ""

/-- Output field of a row, as read back: row[2] if present and nonempty. -/
def entryOutput (row : Row) : Option String :=
  if 2 < row.length ∧ row.getD 2 "" ≠ "" then some (row.getD 2 "") else none

/-- CSVManager.get_all_entries: rows with fewer than two fields are
skipped; a row whose label field does not parse as an integer raises
inside the single try block, so reading stops there and the entries
collected so far are returned. -/
def get_all_entries : List Row → List Entry
  | [] => []
  | row :: rest =>
    if 2 ≤ row.length then
      match pyInt (row.getD 1 "") with
      | some label => (row.getD 0 "", label, entryOutput row) :: get_all_entries rest
      | none => []
    else get_all_entries rest

/-- CSVManager.get_labeled_videos: the set of normalized first fields of
all rows with at least one field. -/
def get_labeled_videos (rows : List Row) : Finset String :=
  rows.foldl
    (fun acc row => if 1 ≤ row.length then insert (normpath (row.getD 0 "")) acc else acc)
    ∅

/-- Serialization of an entry as CSVManager.remove_last_entry rewrites it:
video path, label via str, output path or the empty string. -/
def rowOfEntry (e : Entry) : Row := [e.1, intStr e.2.1, e.2.2.getD ""]

/-- CSVManager.remove_last_entry: parse all entries, pop the last, rewrite
the store from the remaining parsed entries; on an empty parse result
return none and leave the store untouched. -/
def remove_last_entry (rows : List Row) : Option Entry × List Row :=
  let entries := get_all_entries rows
  match entries.getLast? with
  | none => (none, rows)
  | some e => (some e, entries.dropLast.map rowOfEntry)

/-- The append operations of the ledger interface. -/
inductive LedgerOp where
  | passOp (video : String)
  | failOp (video : String) (clip : String)
  | uncertainOp (video : String)

/-- Video path of an append operation. -/
def LedgerOp.video : LedgerOp → String
  | .passOp v => v
  | .failOp v _ => v
  | .uncertainOp v => v

/-- Effect of one append operation on the store. -/
def LedgerOp.apply (rows : List Row) : LedgerOp → List Row
  | .passOp v => write_pass rows v
  | .failOp v c => write_fail rows v c
  | .uncertainOp v => write_uncertain rows v

/-- The entry an append operation records. -/
def LedgerOp.entry : LedgerOp → Entry
  | .passOp v => (v, 1, none)
  | .failOp v c => (v, 0, some c)
  | .uncertainOp v => (v, 2, none)

/-- Run a sequence of append operations against the store. -/
def run_ops (rows : List Row) (ops : List LedgerOp) : List Row :=
  ops.foldl LedgerOp.apply rows

/-- A row both read paths accept: at least two fields, integer label. -/
def wellFormedRow (row : Row) : Prop :=
  2 ≤ row.length ∧ (pyInt (row.getD 1 "")).isSome

instance (row : Row) : Decidable (wellFormedRow row) :=
  inferInstanceAs (Decidable (2 ≤ row.length ∧ (pyInt (row.getD 1 "")).isSome = true))

/-- No fail append carries an empty clip path (Fail entries carry the
absolute path of the extracted clip, never the empty string). -/
def goodClips (ops : List LedgerOp) : Prop :=
  ∀ v c, LedgerOp.failOp v c ∈ ops → c ≠ ""

/-! ### constants.py -/

/-- Reserved output subdirectory name. -/
def FAILURES_DIR : String := "_failures"

/-- Supported video file extensions (the allow-list is matched after
lowercasing the suffix). -/
def VIDEO_EXTENSIONS : List String :=
  [".mp4", ".avi", ".mov", ".mkv", ".wmv", ".webm", ".flv", ".m4v", ".mpeg", ".mpg", ".3gp"]

/-! ### clip_extractor.py

The external world is an explicit environment: whether ffmpeg is on the
PATH, whether creating the reserved output directory succeeds (the mkdir
calls sit outside every try block in the source), the set of files that
already exist, and the outcome of each of the two subprocess invocations
(stream copy, then re-encode fallback).  The timestamp strings passed to
ffmpeg use float formatting and do not influence any claim, so the
command line itself is not modelled. -/

/-- Exceptions that can escape the embedded Python code. -/
inductive PyErr where
  | typeError
  | osError
deriving DecidableEq

/-- Outcome of one subprocess.run invocation: completion with an exit code
and stderr text, a timeout, or some other raised exception. -/
inductive RunOutcome where
  | completed (exitCode : Int) (stderrText : String)
  | timedOut
  | raised (msg : String)

/-- The environment a clip extraction runs against. -/
structure ExtractEnv where
  ffmpegAvailable : Bool
  mkdirOk : Bool
  existingFiles : List String
  copyRun : RunOutcome
  reencodeRun : RunOutcome

/-- check_ffmpeg_available. -/
def check_ffmpeg_available (env : ExtractEnv) : Bool := env.ffmpegAvailable

/-- Message returned when ffmpeg is not on the PATH. -/
def ffmpegMissingMsg : String :=
  "FFmpeg not found. Please install FFmpeg and add it to your PATH."

/-- Message returned when a subprocess invocation times out. -/
def timeoutMsg : String := "FFmpeg timed out while extracting clip."

/-- get_failures_dir: the reserved subdirectory under the video root (the
directory creation side effect is the mkdirOk gate of the environment). -/
def get_failures_dir (root_video_dir : String) : String :=
  root_video_dir ++ "/" ++ FAILURES_DIR

/-- generate_clip_filename: source stem, fail marker, whole-second offsets
(floor division by 1000, as the Python // operator), source suffix. -/
def generate_clip_filename (source_path : String) (start_ms end_ms : Int) : String :=
  path_stem source_path ++ "_fail_" ++ intStr (Int.fdiv start_ms 1000) ++ "s-" ++
    intStr (Int.fdiv end_ms 1000) ++ "s" ++ path_suffix source_path

/-- Candidate clip path tried by the collision loop at a given counter. -/
def candidate_name (failures_dir base ext : String) (counter : Nat) : String :=
  failures_dir ++ "/" ++ base ++ "_" ++ natStr counter ++ ext

/-- The collision loop of extract_failure_clip: starting at counter 1, try
suffixed names until one does not exist.  The fuel argument makes the
recursion structural; existingFiles.length + 1 probes always reach a free
name because distinct counters give distinct names. -/
def find_free_output (existing : List String) (failures_dir base ext : String) :
    Nat → Nat → String
  | 0, counter => candidate_name failures_dir base ext counter
  | fuel + 1, counter =>
    if candidate_name failures_dir base ext counter ∈ existing then
      find_free_output existing failures_dir base ext fuel (counter + 1)
    else candidate_name failures_dir base ext counter

/-- Collision handling of extract_failure_clip: keep the derived name if it
is free, otherwise append an incrementing numeric suffix. -/
def resolve_output_path (existing : List String) (failures_dir output_path0 : String) :
    String :=
  if output_path0 ∈ existing then
    find_free_output existing failures_dir (path_stem output_path0)
      (path_suffix output_path0) (existing.length + 1) 1
  else output_path0

/-- extract_clip: availability check, output directory creation (outside
the try block, so a failure there escapes as an OSError), then the stream
copy attempt with a re-encode fallback inside one try block that converts
timeouts and any other exception into a failure result. -/
def extract_clip (env : ExtractEnv) (source_path output_path : String)
    (start_ms end_ms : Int) : Except PyErr (Bool × String) :=
  if ¬ env.ffmpegAvailable then .ok (false, ffmpegMissingMsg)
  else if ¬ env.mkdirOk then .error .osError
  else
    match env.copyRun with
    | .completed 0 _ => .ok (true, "Clip saved to: " ++ output_path)
    | .completed _ _ =>
      match env.reencodeRun with
      | .completed 0 _ => .ok (true, "Clip saved (re-encoded) to: " ++ output_path)
      | .completed _ stderrText => .ok (false, "FFmpeg error: " ++ stderrText)
      | .timedOut => .ok (false, timeoutMsg)
      | .raised m => .ok (false, "Error extracting clip: " ++ m)
    | .timedOut => .ok (false, timeoutMsg)
    | .raised m => .ok (false, "Error extracting clip: " ++ m)

/-- extract_failure_clip: create the failures directory (a raising mkdir,
outside any try block), derive and deduplicate the output name, run
extract_clip, and pair the success flag with the clip path or none. -/
def extract_failure_clip (env : ExtractEnv) (source_path root_video_dir : String)
    (start_ms end_ms : Int) : Except PyErr (Bool × String × Option String) :=
  if ¬ env.mkdirOk then .error .osError
  else
    let failures_dir := get_failures_dir root_video_dir
    let output_path := resolve_output_path env.existingFiles failures_dir
      (failures_dir ++ "/" ++ generate_clip_filename source_path start_ms end_ms)
    match extract_clip env source_path output_path start_ms end_ms with
    | .error e => .error e
    | .ok (true, message) => .ok (true, message, some output_path)
    | .ok (false, message) => .ok (false, message, none)

/-! ### video_scanner.py

The os.walk traversal is modelled by a list of file records, one per file
under the root, in arbitrary filesystem iteration order.  Each record
carries the directory components below the root and the file name; the
dirnames pruning of the source means a file is visited exactly when no
directory component on its path equals the reserved name.  The root is
assumed absolute and symlink-free, so Path.resolve is the plain join. -/

/-- One file the walk would visit if nothing were pruned. -/
structure FileRec where
  dirs : List String
  filename : String

/-- Absolute path of a walked file under the root. -/
def file_path (root : String) (f : FileRec) : String :=
  root ++ String.join ((f.dirs ++ [f.filename]).map (fun comp => "/" ++ comp))

/-- is_video_file: case-insensitive suffix membership in the allow-list. -/
def is_video_file (path : String) : Bool :=
  VIDEO_EXTENSIONS.contains (lowerStr (path_suffix path))

/-- Filesystem state a scan runs against. -/
structure ScanEnv where
  rootExists : Bool
  rootIsDir : Bool
  walk : List FileRec

/-- scan_directory: empty result for a missing or non-directory root,
otherwise collect the unpruned video files and sort their paths (the
Python builtin sorted, modelled by insertion sort over the code-point
lexicographic order). -/
def scan_directory (env : ScanEnv) (root_path : String) : List String :=
  if ¬ env.rootExists ∨ ¬ env.rootIsDir then []
  else
    List.insertionSort pyStrLe
      ((env.walk.filter
          (fun f => !f.dirs.contains FAILURES_DIR && is_video_file (file_path root_path f))).map
        (file_path root_path))

/-- filter_unlabeled. -/
def filter_unlabeled (all_videos : List String) (labeled_videos : Finset String) :
    List String :=
  all_videos.filter (fun v => v ∉ labeled_videos)

/-! ### app.py: session state, the segment state machine, labeling handlers

The mutable fields of the main window that the claims concern become an
explicit state value.  Message boxes are represented by the outcome
constructors; the player and timeline widgets carry no state the claims
depend on.  current_video is the loaded path, empty when none is loaded
(Python None or empty string are both falsy in the guards). -/

/-- The window state relevant to the claims. -/
structure AppState where
  segment_mode : Bool
  segment_start : Option Int
  segment_end : Option Int
  rows : List Row
  current_index : Nat
  current_video : String
  root_dir : String

/-- What a call of the confirm handler reports. -/
inductive ConfirmOutcome where
  | noop
  | incomplete
  | tooShort
  | extractionFailed (message : String)
  | extracted (message : String) (clip_path : String)

/-- VideoLabelingApp._exit_segment_mode. -/
def exit_segment_mode (st : AppState) : AppState :=
  { st with segment_mode := false, segment_start := none, segment_end := none }

/-- VideoLabelingApp._next_video: advance the queue cursor. -/
def next_video (st : AppState) : AppState :=
  { st with current_index := st.current_index + 1 }

/-- VideoLabelingApp._confirm_segment: guard on segment mode, validate
both marks present, order the range, enforce the 100 ms minimum, extract,
and on success write the fail entry, leave segment mode and advance. -/
def confirm_segment (env : ExtractEnv) (st : AppState) :
    Except PyErr (ConfirmOutcome × AppState) :=
  if ¬ st.segment_mode then .ok (.noop, st)
  else
    match st.segment_start, st.segment_end with
    | some s0, some e0 =>
      let startMs := min s0 e0
      let endMs := max s0 e0
      if endMs - startMs < 100 then .ok (.tooShort, st)
      else
        match extract_failure_clip env st.current_video st.root_dir startMs endMs with
        | .error e => .error e
        | .ok (success, message, clip_path) =>
          if success = true ∧ clip_path.getD "" ≠ "" then
            .ok (.extracted message (clip_path.getD ""),
              next_video (exit_segment_mode
                { st with rows := write_fail st.rows st.current_video (clip_path.getD "") }))
          else .ok (.extractionFailed message, st)
    | _, _ => .ok (.incomplete, st)

/-- Parameter count of CSVManager.write_uncertain besides self. -/
def write_uncertain_arity : Nat := 1

/-- Dynamic call of the bound method write_uncertain with an argument
list, as Python resolves it: an arity mismatch raises TypeError before
the body runs. -/
def call_write_uncertain (rows : List Row) (args : List String) :
    Except PyErr (List Row) :=
  if args.length = write_uncertain_arity then .ok (write_uncertain rows (args.getD 0 ""))
  else .error .typeError

/-- VideoLabelingApp._mark_uncertain: guard on mode and loaded video, show
the note dialog (its outcome is the note text and the ok flag), and on ok
call write_uncertain with the video and the note, then advance. -/
def mark_uncertain (st : AppState) (note : String) (dialogOk : Bool) :
    Except PyErr AppState :=
  if st.segment_mode ∨ st.current_video = "" then .ok st
  else if dialogOk then
    match call_write_uncertain st.rows [st.current_video, note] with
    | .error e => .error e
    | .ok rows2 => .ok (next_video { st with rows := rows2 })
  else .ok st

/-! ### Concrete sample values instantiating the theorems below -/

/-- Environment where ffmpeg is present, the output directory can be
created, no clip exists yet, and the stream copy succeeds. -/
def envOk : ExtractEnv :=
  { ffmpegAvailable := true, mkdirOk := true, existingFiles := [],
    copyRun := .completed 0 "", reencodeRun := .completed 0 "" }

/-- Environment where ffmpeg is missing from the PATH. -/
def envNoTool : ExtractEnv := { envOk with ffmpegAvailable := false }

/-- Environment where creating the reserved output directory fails, for
example because a regular file named _failures sits at the video root. -/
def envNoMkdir : ExtractEnv := { envOk with mkdirOk := false }

/-- Environment where the derived clip name already exists on disk. -/
def envCollide : ExtractEnv :=
  { envOk with existingFiles := ["/vids/_failures/a_fail_0s-5s.mp4"] }

/-- Window state inside segment mode with no marks set yet. -/
def stBase : AppState :=
  { segment_mode := true, segment_start := none, segment_end := none, rows := [],
    current_index := 0, current_video := "/vids/a.mp4", root_dir := "/vids" }

/-- Segment mode with the end mark placed before the start mark. -/
def stMarked : AppState := { stBase with segment_start := some 500, segment_end := some 400 }

/-- Normal mode with a video loaded. -/
def stNormal : AppState := { stBase with segment_mode := false }

/-- A store holding a well-formed row, a row whose label field is not an
integer, and another well-formed row. -/
def malformedRows : List Row := [["a", "1", ""], ["b", "x", ""], ["c", "1", ""]]

/-- A sample append sequence covering all three labels. -/
def opsW : List LedgerOp :=
  [.passOp "/vids/a.mp4", .failOp "/vids/b.mp4" "/vids/_failures/b_fail_0s-1s.mp4",
    .uncertainOp "/vids/c.mp4"]

/-- A sample filesystem walk: an uppercase extension, a nested video, a
video inside the reserved directory, and a non-video file. -/
def scanEnvW : ScanEnv :=
  { rootExists := true, rootIsDir := true,
    walk := [⟨[], "b.MOV"⟩, ⟨["sub"], "c.mkv"⟩, ⟨["_failures"], "x.mp4"⟩,
      ⟨[], "notes.txt"⟩, ⟨[], "a.mp4"⟩] }

/-! ### Lemma development -/

theorem digitChar_spec : ∀ d : Nat, d < 10 →
    isDigitChar (digitChar d) = true ∧ (digitChar d).toNat - 48 = d := by decide

theorem digitsVal_append (xs : List Char) (c : Char) :
    digitsVal (xs ++ [c]) = 10 * digitsVal xs + (c.toNat - 48) := by
  simp [digitsVal, List.foldl_append]

theorem natDigitsRev_spec : ∀ fuel n : Nat, n < fuel →
    ((natDigitsRev fuel n).reverse.all isDigitChar = true ∧
      digitsVal (natDigitsRev fuel n).reverse = n ∧ natDigitsRev fuel n ≠ []) := by
  intro fuel
  induction fuel with
  | zero => intro n h; omega
  | succ f ih =>
    intro n h
    by_cases hn : n < 10
    · refine ⟨?_, ?_, ?_⟩ <;> simp [natDigitsRev, hn, digitsVal, (digitChar_spec n hn).1]
      have := (digitChar_spec n hn).2
      omega
    · have hdivlt : n / 10 < n := Nat.div_lt_self (by omega) (by omega)
      have hdiv : n / 10 < f := by omega
      obtain ⟨hall, hval, hne⟩ := ih (n / 10) hdiv
      have hmod : n % 10 < 10 := Nat.mod_lt _ (by omega)
      refine ⟨?_, ?_, ?_⟩
      · simp only [natDigitsRev, if_neg hn, List.reverse_cons, List.all_append]
        simp [hall, (digitChar_spec _ hmod).1]
      · simp only [natDigitsRev, if_neg hn, List.reverse_cons]
        rw [digitsVal_append, hval]
        have := (digitChar_spec _ hmod).2
        omega
      · simp [natDigitsRev, if_neg hn]

theorem natStr_data (n : Nat) : (natStr n).data = (natDigitsRev (n + 1) n).reverse := rfl

theorem pyInt_natStr (n : Nat) : pyInt (natStr n) = some (n : Int) := by
  obtain ⟨hall, hval, hne⟩ := natDigitsRev_spec (n + 1) n (by omega)
  unfold pyInt
  rw [natStr_data]
  rcases hrev : (natDigitsRev (n + 1) n).reverse with _ | ⟨c, cs⟩
  · exact absurd (by simpa using congrArg List.reverse hrev) hne
  · rw [hrev] at hall hval
    have hc : isDigitChar c = true := by
      have := List.all_eq_true.mp hall c (by simp)
      simpa using this
    have hcne1 : ¬ c = '-' := by
      intro hcc; rw [hcc] at hc; simp [isDigitChar] at hc
    have hcne2 : ¬ c = '+' := by
      intro hcc; rw [hcc] at hc; simp [isDigitChar] at hc
    simp only [if_neg hcne1, if_neg hcne2, hall, if_pos]
    exact congrArg some (congrArg _ hval)

theorem pyInt_intStr (i : Int) : pyInt (intStr i) = some i := by
  by_cases hi : i < 0
  · have hdata : ("-" ++ natStr i.natAbs).data = '-' :: (natStr i.natAbs).data := by
      rw [String.data_append]; rfl
    obtain ⟨hall, hval, hne⟩ := natDigitsRev_spec (i.natAbs + 1) i.natAbs (by omega)
    unfold intStr pyInt
    rw [if_pos hi, hdata, natStr_data]
    have hnonempty : ¬ (natDigitsRev (i.natAbs + 1) i.natAbs).reverse.isEmpty = true := by
      rcases h : (natDigitsRev (i.natAbs + 1) i.natAbs).reverse with _ | _
      · exact absurd (by simpa using congrArg List.reverse h) hne
      · simp [h, List.isEmpty]
    simp only [if_pos rfl, hall, hnonempty, Bool.not_false, Bool.true_and, if_pos, hval]
    congr 1
    omega
  · unfold intStr
    rw [if_neg hi, pyInt_natStr]
    congr 1
    omega

theorem natStr_inj : Function.Injective natStr := by
  intro a b h
  have : pyInt (natStr a) = pyInt (natStr b) := by rw [h]
  rw [pyInt_natStr, pyInt_natStr] at this
  exact_mod_cast Option.some_injective _ this

theorem get_all_entries_append {xs : List Row} (ys : List Row)
    (h : ∀ r ∈ xs, wellFormedRow r) :
    get_all_entries (xs ++ ys) = get_all_entries xs ++ get_all_entries ys := by
  induction xs with
  | nil => simp [get_all_entries]
  | cons x xs ih =>
    have hx := h x (by simp)
    obtain ⟨hlen, hsome⟩ := hx
    obtain ⟨l, hl⟩ := Option.isSome_iff_exists.mp hsome
    rw [List.cons_append]
    simp only [get_all_entries, if_pos hlen, hl]
    rw [ih (fun r hr => h r (by simp [hr])), List.cons_append]

theorem get_all_entries_map_rowOfEntry {es : List Entry}
    (h : ∀ e ∈ es, e.2.2 ≠ some "") :
    get_all_entries (es.map rowOfEntry) = es := by
  induction es with
  | nil => rfl
  | cons e es ih =>
    obtain ⟨v, l, out⟩ := e
    have hout : out ≠ some "" := h (v, l, out) (by simp)
    have hrow : rowOfEntry (v, l, out) = [v, intStr l, out.getD ""] := rfl
    simp only [List.map_cons, hrow, get_all_entries]
    rw [if_pos (by simp)]
    have hget1 : ([v, intStr l, out.getD ""] : Row).getD 1 "" = intStr l := rfl
    rw [hget1, pyInt_intStr]
    have hentry : entryOutput [v, intStr l, out.getD ""] = out := by
      cases out with
      | none => simp [entryOutput]
      | some c =>
        have hc : c ≠ "" := fun hc => hout (by rw [hc])
        simp [entryOutput, hc]
    rw [hentry, ih (fun e he => h e (by simp [he]))]
    rfl

theorem LedgerOp.apply_eq (rows : List Row) (op : LedgerOp) :
    op.apply rows = rows ++ [rowOfEntry op.entry] := by
  cases op <;> rfl

theorem run_ops_eq (rows : List Row) (ops : List LedgerOp) :
    run_ops rows ops = rows ++ (ops.map LedgerOp.entry).map rowOfEntry := by
  induction ops generalizing rows with
  | nil => simp [run_ops]
  | cons op ops ih =>
    show run_ops (op.apply rows) ops = _
    rw [ih, LedgerOp.apply_eq]
    simp

theorem entry_output_ne_empty {ops : List LedgerOp} (h : goodClips ops) :
    ∀ e ∈ ops.map LedgerOp.entry, e.2.2 ≠ some "" := by
  intro e he
  obtain ⟨op, hop, rfl⟩ := List.mem_map.mp he
  cases op with
  | passOp v => simp [LedgerOp.entry]
  | uncertainOp v => simp [LedgerOp.entry]
  | failOp v c =>
    have := h v c hop
    simp [LedgerOp.entry]
    exact fun hc => this hc

theorem get_all_entries_run_ops {ops : List LedgerOp} (h : goodClips ops) :
    get_all_entries (run_ops [] ops) = ops.map LedgerOp.entry := by
  rw [run_ops_eq, List.nil_append]
  exact get_all_entries_map_rowOfEntry (entry_output_ne_empty h)

theorem mem_get_labeled_aux (rows : List Row) (acc : Finset String) (x : String) :
    (x ∈ rows.foldl
        (fun acc row =>
          if 1 ≤ row.length then insert (normpath (row.getD 0 "")) acc else acc) acc) ↔
      x ∈ acc ∨ ∃ row ∈ rows, 1 ≤ row.length ∧ x = normpath (row.getD 0 "") := by
  induction rows generalizing acc with
  | nil => simp
  | cons r rows ih =>
    simp only [List.foldl_cons]
    by_cases hr : 1 ≤ r.length
    · rw [if_pos hr, ih]
      simp only [Finset.mem_insert, List.mem_cons]
      constructor
      · rintro (⟨h | h⟩ | ⟨row, hrow, hl, hx⟩)
        · exact Or.inr ⟨r, Or.inl rfl, hr, h⟩
        · exact Or.inl h
        · exact Or.inr ⟨row, Or.inr hrow, hl, hx⟩
      · rintro (h | ⟨row, hrow | hrow, hl, hx⟩)
        · exact Or.inl (Or.inr h)
        · exact Or.inl (Or.inl (hrow ▸ hx))
        · exact Or.inr ⟨row, hrow, hl, hx⟩
    · rw [if_neg hr, ih]
      simp only [List.mem_cons]
      constructor
      · rintro (h | ⟨row, hrow, hl, hx⟩)
        · exact Or.inl h
        · exact Or.inr ⟨row, Or.inr hrow, hl, hx⟩
      · rintro (h | ⟨row, hrow | hrow, hl, hx⟩)
        · exact Or.inl h
        · exact absurd (hrow ▸ hl) hr
        · exact Or.inr ⟨row, hrow, hl, hx⟩

theorem mem_get_labeled (rows : List Row) (x : String) :
    x ∈ get_labeled_videos rows ↔
      ∃ row ∈ rows, 1 ≤ row.length ∧ x = normpath (row.getD 0 "") := by
  rw [get_labeled_videos, mem_get_labeled_aux]
  simp

theorem rowOfEntry_entry_getD0 (op : LedgerOp) :
    (rowOfEntry op.entry).getD 0 "" = op.video := by
  cases op <;> rfl

theorem rowOfEntry_entry_length (op : LedgerOp) :
    (rowOfEntry op.entry).length = 3 := by
  cases op <;> rfl

theorem get_labeled_run_ops {ops : List LedgerOp}
    (hnorm : ∀ op ∈ ops, normpath op.video = op.video) :
    get_labeled_videos (run_ops [] ops) = (ops.map LedgerOp.video).toFinset := by
  ext x
  rw [mem_get_labeled, run_ops_eq, List.nil_append, List.mem_toFinset]
  constructor
  · rintro ⟨row, hrow, _, hx⟩
    obtain ⟨e, he, rfl⟩ := List.mem_map.mp hrow
    obtain ⟨op, hop, rfl⟩ := List.mem_map.mp he
    rw [rowOfEntry_entry_getD0, hnorm op hop] at hx
    exact List.mem_map.mpr ⟨op, hop, hx.symm⟩
  · intro hx
    obtain ⟨op, hop, rfl⟩ := List.mem_map.mp hx
    refine ⟨rowOfEntry op.entry, ?_, ?_, ?_⟩
    · exact List.mem_map.mpr ⟨op.entry, List.mem_map.mpr ⟨op, hop, rfl⟩, rfl⟩
    · rw [rowOfEntry_entry_length]; omega
    · rw [rowOfEntry_entry_getD0, hnorm op hop]

theorem candidate_name_inj (failures_dir base ext : String) :
    Function.Injective (candidate_name failures_dir base ext) := by
  intro a b h
  have hd := congrArg String.data h
  simp only [candidate_name, String.data_append] at hd
  have h1 := List.append_cancel_right hd
  have h2 := List.append_cancel_left h1
  exact natStr_inj (congrArg String.mk h2)

theorem find_free_output_aux (existing : List String) (failures_dir base ext : String) :
    ∀ fuel counter : Nat,
      (((List.range fuel).map
          (fun i => candidate_name failures_dir base ext (counter + i))).filter
        (fun s => s ∈ existing)).length < fuel →
      find_free_output existing failures_dir base ext fuel counter ∉ existing := by
  intro fuel
  induction fuel with
  | zero => intro counter h; omega
  | succ f ih =>
    intro counter h
    by_cases hc : candidate_name failures_dir base ext counter ∈ existing
    · rw [find_free_output, if_pos hc]
      apply ih
      rw [List.range_succ_eq_map, List.map_cons, List.map_map] at h
      have hfn : ((fun i => candidate_name failures_dir base ext (counter + i)) ∘ Nat.succ) =
          (fun i => candidate_name failures_dir base ext (counter + 1 + i)) := by
        funext i
        simp only [Function.comp]
        congr 1
        omega
      rw [hfn] at h
      have hz : counter + 0 = counter := by omega
      rw [hz, List.filter_cons] at h
      rw [if_pos (by simp [hc])] at h
      rw [List.length_cons] at h
      omega
    · rw [find_free_output, if_neg hc]
      exact hc

theorem find_free_output_not_mem (existing : List String)
    (failures_dir base ext : String) :
    find_free_output existing failures_dir base ext (existing.length + 1) 1 ∉ existing := by
  apply find_free_output_aux
  set cands := (List.range (existing.length + 1)).map
    (fun i => candidate_name failures_dir base ext (1 + i)) with hcands
  have hinj : Function.Injective (fun i => candidate_name failures_dir base ext (1 + i)) := by
    intro a b hab
    have := candidate_name_inj failures_dir base ext hab
    omega
  have hnodup : cands.Nodup := List.Nodup.map hinj (List.nodup_range _)
  have hfnodup : (cands.filter (fun s => s ∈ existing)).Nodup := hnodup.filter _
  have hsub : (cands.filter (fun s => s ∈ existing)).toFinset ⊆ existing.toFinset := by
    intro x hx
    rw [List.mem_toFinset] at hx ⊢
    have := List.mem_filter.mp hx
    simpa using this.2
  calc (cands.filter (fun s => s ∈ existing)).length
      = (cands.filter (fun s => s ∈ existing)).toFinset.card :=
        (List.toFinset_card_of_nodup hfnodup).symm
    _ ≤ existing.toFinset.card := Finset.card_le_card hsub
    _ ≤ existing.length := List.toFinset_card_le existing
    _ < existing.length + 1 := by omega

theorem resolve_output_path_not_mem (existing : List String)
    (failures_dir output_path0 : String) :
    resolve_output_path existing failures_dir output_path0 ∉ existing := by
  rw [resolve_output_path]
  by_cases h : output_path0 ∈ existing
  · rw [if_pos h]
    exact find_free_output_not_mem existing failures_dir _ _
  · rw [if_neg h]
    exact h

theorem confirm_segment_eq (env : ExtractEnv) (st : AppState) (a b : Int)
    (hmode : st.segment_mode = true)
    (hs : st.segment_start = some a) (he : st.segment_end = some b) :
    confirm_segment env st =
      if max a b - min a b < 100 then .ok (.tooShort, st)
      else
        match extract_failure_clip env st.current_video st.root_dir (min a b) (max a b) with
        | .error e => .error e
        | .ok (success, message, clip_path) =>
          if success = true ∧ clip_path.getD "" ≠ "" then
            .ok (.extracted message (clip_path.getD ""),
              next_video (exit_segment_mode
                { st with rows := write_fail st.rows st.current_video (clip_path.getD "") }))
          else .ok (.extractionFailed message, st) := by
  simp only [confirm_segment, hmode, hs, he]
  rw [if_neg (by simp)]

/-! ### Claim theorems -/

/-- C1: in segment-selection mode, confirm succeeds only when both start
and end are set; a missing mark yields a validation report with the state
untouched; the effective range is order-independent (the reported outcome
is the same whichever mark was placed first); a 99 ms range is rejected
with the state untouched; a 100 ms range passes validation. -/
theorem c1_confirm_validation (env : ExtractEnv) (st : AppState)
    (hmode : st.segment_mode = true) :
    ((st.segment_start = none ∨ st.segment_end = none) →
      confirm_segment env st = .ok (.incomplete, st)) ∧
    (∀ a b : Int, st.segment_start = some a → st.segment_end = some b →
      max a b - min a b < 100 → confirm_segment env st = .ok (.tooShort, st)) ∧
    (∀ a b : Int,
      (confirm_segment env { st with segment_start := some a, segment_end := some b }).map
          Prod.fst =
        (confirm_segment env { st with segment_start := some b, segment_end := some a }).map
          Prod.fst) ∧
    (∀ a : Int, st.segment_start = some a → st.segment_end = some (a + 99) →
      confirm_segment env st = .ok (.tooShort, st)) ∧
    (∀ a : Int, st.segment_start = some a → st.segment_end = some (a + 100) →
      ∀ st2 : AppState,
        confirm_segment env st ≠ .ok (.noop, st2) ∧
        confirm_segment env st ≠ .ok (.incomplete, st2) ∧
        confirm_segment env st ≠ .ok (.tooShort, st2)) := by
  refine ⟨?_, ?_, ?_, ?_, ?_⟩
  · intro h
    rcases hs : st.segment_start with _ | a
    · simp [confirm_segment, hmode, hs]
    · rcases he : st.segment_end with _ | b
      · simp [confirm_segment, hmode, hs, he]
      · rcases h with h | h
        · rw [hs] at h; exact absurd h (by simp)
        · rw [he] at h; exact absurd h (by simp)
  · intro a b hs he hlt
    rw [confirm_segment_eq env st a b hmode hs he, if_pos hlt]
  · intro a b
    rw [confirm_segment_eq env _ a b (by simp [hmode]) (by simp) (by simp),
      confirm_segment_eq env _ b a (by simp [hmode]) (by simp) (by simp),
      min_comm b a, max_comm b a]
    by_cases hd : max a b - min a b < 100
    · rw [if_pos hd, if_pos hd]; rfl
    · rw [if_neg hd, if_neg hd]
      cases hE : extract_failure_clip env st.current_video st.root_dir (min a b) (max a b) with
      | error e => rfl
      | ok res =>
        obtain ⟨success, msg, clip⟩ := res
        by_cases hc : success = true ∧ clip.getD "" ≠ "" <;> simp [hc, Except.map]
  · intro a hs he
    have hlt : max a (a + 99) - min a (a + 99) < 100 := by
      rw [max_eq_right (by omega), min_eq_left (by omega)]; omega
    rw [confirm_segment_eq env st a (a + 99) hmode hs he, if_pos hlt]
  · intro a hs he st2
    have hge : ¬ max a (a + 100) - min a (a + 100) < 100 := by
      rw [max_eq_right (by omega), min_eq_left (by omega)]; omega
    rw [confirm_segment_eq env st a (a + 100) hmode hs he, if_neg hge]
    cases hE : extract_failure_clip env st.current_video st.root_dir
        (min a (a + 100)) (max a (a + 100)) with
    | error e => simp
    | ok res =>
      obtain ⟨success, msg, clip⟩ := res
      by_cases hc : success = true ∧ clip.getD "" ≠ "" <;> simp [hc]

/-- Witness for C1 at concrete inputs: confirm with no marks reports the
incomplete validation error and returns the state unchanged, a 99 ms
range is rejected unchanged, and a 100 ms range is not rejected. -/
theorem c1_confirm_validation_witness :
    confirm_segment envOk stBase = .ok (.incomplete, stBase) ∧
    confirm_segment envOk { stBase with segment_start := some 401, segment_end := some 500 } =
      .ok (.tooShort, { stBase with segment_start := some 401, segment_end := some 500 }) ∧
    confirm_segment envOk { stBase with segment_start := some 400, segment_end := some 500 } ≠
      .ok (.tooShort, stBase) := by
  refine ⟨(c1_confirm_validation envOk stBase rfl).1 (Or.inl rfl), ?_, ?_⟩
  · exact (c1_confirm_validation envOk _ rfl).2.2.2.1 401 rfl (by decide)
  · exact ((c1_confirm_validation envOk _ rfl).2.2.2.2 400 rfl (by decide) stBase).2.2

/-- C2: once validation passes, confirm invokes the extractor on the
ordered range; if the extractor fails the machine stays in Selecting with
both marks and the ledger untouched (the returned state is literally the
input state); if it succeeds a Fail row carrying the clip path is appended
and the machine leaves segment mode and advances the queue. -/
theorem c2_confirm_extraction_effects (env : ExtractEnv) (st : AppState)
    (a b : Int) (hmode : st.segment_mode = true)
    (hs : st.segment_start = some a) (he : st.segment_end = some b)
    (hdur : ¬ max a b - min a b < 100) :
    (∀ msg, extract_failure_clip env st.current_video st.root_dir (min a b) (max a b) =
        .ok (false, msg, none) →
      confirm_segment env st = .ok (.extractionFailed msg, st)) ∧
    (∀ msg p, p ≠ "" →
      extract_failure_clip env st.current_video st.root_dir (min a b) (max a b) =
        .ok (true, msg, some p) →
      ∃ st2, confirm_segment env st = .ok (.extracted msg p, st2) ∧
        st2.rows = write_fail st.rows st.current_video p ∧
        st2.segment_mode = false ∧ st2.segment_start = none ∧ st2.segment_end = none ∧
        st2.current_index = st.current_index + 1) := by
  constructor
  · intro msg hE
    rw [confirm_segment_eq env st a b hmode hs he, if_neg hdur, hE]
    simp
  · intro msg p hp hE
    refine ⟨next_video (exit_segment_mode
      { st with rows := write_fail st.rows st.current_video p }), ?_, rfl, rfl, rfl, rfl, rfl⟩
    rw [confirm_segment_eq env st a b hmode hs he, if_neg hdur, hE]
    simp [hp]

/-- Witness for C2 at concrete inputs, with the marks placed in reverse
order so the resolved range is the min and max of the two: a missing tool
leaves the state unchanged and writes nothing; a successful extraction
appends the fail row and leaves segment mode. -/
theorem c2_confirm_extraction_effects_witness :
    confirm_segment envNoTool stMarked = .ok (.extractionFailed ffmpegMissingMsg, stMarked) ∧
    (∃ st2,
      confirm_segment envOk stMarked =
        .ok (.extracted "Clip saved to: /vids/_failures/a_fail_0s-0s.mp4"
          "/vids/_failures/a_fail_0s-0s.mp4", st2) ∧
      st2.rows = write_fail stMarked.rows stMarked.current_video
        "/vids/_failures/a_fail_0s-0s.mp4" ∧
      st2.segment_mode = false ∧ st2.segment_start = none ∧ st2.segment_end = none ∧
      st2.current_index = stMarked.current_index + 1) := by
  constructor
  · exact (c2_confirm_extraction_effects envNoTool stMarked 500 400 rfl rfl rfl
      (by decide)).1 ffmpegMissingMsg rfl
  · exact (c2_confirm_extraction_effects envOk stMarked 500 400 rfl rfl rfl
      (by decide)).2 "Clip saved to: /vids/_failures/a_fail_0s-0s.mp4"
      "/vids/_failures/a_fail_0s-0s.mp4" (by decide) rfl

/-- C3: every append sequence reads back in call order, and since the
store itself is the durable representation, reopening the ledger reads
the same rows; the labeled-video set equals the set of distinct video
paths across the operations (paths are normalized on read, so this is
stated for the normalized paths the data model prescribes). -/
theorem c3_append_roundtrip (ops : List LedgerOp) (hclips : goodClips ops)
    (hnorm : ∀ op ∈ ops, normpath op.video = op.video) :
    get_all_entries (run_ops [] ops) = ops.map LedgerOp.entry ∧
    get_labeled_videos (run_ops [] ops) = (ops.map LedgerOp.video).toFinset :=
  ⟨get_all_entries_run_ops hclips, get_labeled_run_ops hnorm⟩

/-- Witness for C3 on a pass, fail and uncertain append. -/
theorem c3_append_roundtrip_witness :
    get_all_entries (run_ops [] opsW) = opsW.map LedgerOp.entry ∧
    get_labeled_videos (run_ops [] opsW) = (opsW.map LedgerOp.video).toFinset := by
  refine c3_append_roundtrip opsW ?_ ?_
  · intro v c h
    simp [opsW] at h
    obtain ⟨_, rfl⟩ := h
    decide
  · intro op hop
    simp [opsW] at hop
    rcases hop with rfl | rfl | rfl <;> decide

/-- C4 counterexample: with a non-integer label row standing between two
well-formed rows, all_entries returns only the entry before the malformed
row, not every well-formed entry as the claim states. -/
theorem c4_counterexample :
    get_all_entries malformedRows = [("a", 1, none)] ∧
    get_all_entries malformedRows ≠ [("a", 1, none), ("c", 1, none)] := by
  constructor
  · decide
  · decide

/-- C4 amended: a row with fewer than two fields is skipped without
affecting the rest of the read; a row with at least two fields whose
label does not parse as an integer ends the read, so the entries before
it are returned and every later row is lost; the labeled-video set read
never aborts and covers every row with at least one field. -/
theorem c4_malformed_rows_amended (xs ys : List Row) (r : Row) :
    (r.length < 2 → get_all_entries (xs ++ r :: ys) = get_all_entries (xs ++ ys)) ∧
    (2 ≤ r.length → pyInt (r.getD 1 "") = none → (∀ x ∈ xs, wellFormedRow x) →
      get_all_entries (xs ++ r :: ys) = get_all_entries xs) ∧
    (∀ v, v ∈ get_labeled_videos (xs ++ r :: ys) ↔
      ∃ row ∈ xs ++ r :: ys, 1 ≤ row.length ∧ v = normpath (row.getD 0 "")) := by
  refine ⟨?_, ?_, fun v => mem_get_labeled _ v⟩
  · intro hshort
    induction xs with
    | nil =>
      simp only [List.nil_append, get_all_entries]
      rw [if_neg (by omega)]
    | cons x xs ih =>
      simp only [List.cons_append, get_all_entries, List.append_eq]
      by_cases h2 : 2 ≤ x.length
      · rw [if_pos h2, if_pos h2]
        cases hpi : pyInt (x.getD 1 "") with
        | none => rfl
        | some l => rw [ih]
      · rw [if_neg h2, if_neg h2]
        exact ih
  · intro hlen hpi
    induction xs with
    | nil =>
      intro _
      simp only [List.nil_append, get_all_entries]
      rw [if_pos hlen]
      simp only [hpi]
    | cons x xs ih =>
      intro hwf
      obtain ⟨hx2, hxsome⟩ := hwf x (by simp)
      obtain ⟨l, hl⟩ := Option.isSome_iff_exists.mp hxsome
      simp only [List.cons_append, get_all_entries, List.append_eq]
      rw [if_pos hx2, if_pos hx2]
      simp only [hl]
      rw [ih (fun t ht => hwf t (by simp [ht]))]

/-- Witness for C4 amended: a short row is skipped, a non-integer label
row truncates the read, and the labeled set covers the malformed row. -/
theorem c4_malformed_rows_amended_witness :
    get_all_entries ([["a", "1", ""]] ++ ["b"] :: [["c", "1", ""]]) =
      get_all_entries ([["a", "1", ""]] ++ [["c", "1", ""]]) ∧
    get_all_entries ([["a", "1", ""]] ++ ["b", "x", ""] :: [["c", "1", ""]]) =
      get_all_entries [["a", "1", ""]] ∧
    ("b" ∈ get_labeled_videos ([["a", "1", ""]] ++ ["b", "x", ""] :: [["c", "1", ""]]) ↔
      ∃ row ∈ [["a", "1", ""]] ++ ["b", "x", ""] :: [["c", "1", ""]],
        1 ≤ row.length ∧ "b" = normpath (row.getD 0 "")) :=
  ⟨(c4_malformed_rows_amended [["a", "1", ""]] [["c", "1", ""]] ["b"]).1 (by decide),
    (c4_malformed_rows_amended [["a", "1", ""]] [["c", "1", ""]] ["b", "x", ""]).2.1
      (by decide) (by decide) (by decide),
    (c4_malformed_rows_amended [["a", "1", ""]] [["c", "1", ""]] ["b", "x", ""]).2.2 "b"⟩

/-- C5: remove_last returns the most recently appended entry and rewrites
the store so a subsequent read yields the prior entries minus the last,
in order; on an empty ledger it returns none and leaves the store
unchanged. -/
theorem c5_remove_last (ops : List LedgerOp) (hclips : goodClips ops) :
    (remove_last_entry (run_ops [] ops)).1 = (ops.map LedgerOp.entry).getLast? ∧
    get_all_entries (remove_last_entry (run_ops [] ops)).2 =
      (ops.map LedgerOp.entry).dropLast ∧
    (ops = [] → remove_last_entry (run_ops [] ops) = (none, run_ops [] ops)) := by
  have hE : get_all_entries (run_ops [] ops) = ops.map LedgerOp.entry :=
    get_all_entries_run_ops hclips
  simp only [remove_last_entry, hE]
  cases hlast : (ops.map LedgerOp.entry).getLast? with
  | none =>
    have hnil : ops.map LedgerOp.entry = [] := List.getLast?_eq_none_iff.mp hlast
    exact ⟨rfl, by simp [hE, hnil], fun _ => rfl⟩
  | some e =>
    refine ⟨rfl, ?_, ?_⟩
    · apply get_all_entries_map_rowOfEntry
      intro x hx
      exact entry_output_ne_empty hclips x (List.mem_of_mem_dropLast hx)
    · intro h
      subst h
      exact absurd hlast (by simp)

/-- Witness for C5 on the three-append sample and on the empty ledger. -/
theorem c5_remove_last_witness :
    (remove_last_entry (run_ops [] opsW)).1 = (opsW.map LedgerOp.entry).getLast? ∧
    get_all_entries (remove_last_entry (run_ops [] opsW)).2 =
      (opsW.map LedgerOp.entry).dropLast ∧
    remove_last_entry (run_ops [] ([] : List LedgerOp)) = (none, run_ops [] []) := by
  have hg : goodClips opsW := by
    intro v c hmem
    simp [opsW] at hmem
    obtain ⟨_, rfl⟩ := hmem
    decide
  have hg0 : goodClips [] := by
    intro v c hmem
    simp at hmem
  have h := c5_remove_last opsW hg
  exact ⟨h.1, h.2.1, (c5_remove_last [] hg0).2.2 rfl⟩

theorem extract_clip_classified (env : ExtractEnv) (source_path output_path : String)
    (start_ms end_ms : Int) (hmk : env.mkdirOk = true) :
    ∃ ok msg, extract_clip env source_path output_path start_ms end_ms = .ok (ok, msg) ∧
      (ok = false → msg = ffmpegMissingMsg ∨ msg = timeoutMsg ∨
        (∃ t, msg = "FFmpeg error: " ++ t) ∨
        (∃ t, msg = "Error extracting clip: " ++ t)) := by
  unfold extract_clip
  by_cases hA : env.ffmpegAvailable = true
  · rw [if_neg (by simp [hA]), if_neg (by simp [hmk])]
    split
    · exact ⟨true, _, rfl, by simp⟩
    · split
      · exact ⟨true, _, rfl, by simp⟩
      · exact ⟨false, _, rfl, fun _ => Or.inr (Or.inr (Or.inl ⟨_, rfl⟩))⟩
      · exact ⟨false, timeoutMsg, rfl, fun _ => Or.inr (Or.inl rfl)⟩
      · exact ⟨false, _, rfl, fun _ => Or.inr (Or.inr (Or.inr ⟨_, rfl⟩))⟩
    · exact ⟨false, timeoutMsg, rfl, fun _ => Or.inr (Or.inl rfl)⟩
    · exact ⟨false, _, rfl, fun _ => Or.inr (Or.inr (Or.inr ⟨_, rfl⟩))⟩
  · rw [if_pos (by simp [hA])]
    exact ⟨false, ffmpegMissingMsg, rfl, fun _ => Or.inl rfl⟩

/-- C6 counterexample: the mkdir calls of the extractor sit outside every
try block; when creating the reserved output directory fails, for example
because a regular file named _failures occupies that name, an OSError
escapes extract_failure_clip instead of a result value being returned. -/
theorem c6_counterexample :
    extract_failure_clip envNoMkdir "/vids/a.mp4" "/vids" 0 1000 = .error .osError := rfl

/-- C6 amended: provided the output directory creation succeeds, both
extraction entry points always return a result value: on success the
produced clip path, on failure one of the typed diagnostics (tool
missing, timeout, tool error with stderr text, or the catch-all
diagnostic of the final exception handler). -/
theorem c6_extractor_result_amended (env : ExtractEnv)
    (source_path output_path root_video_dir : String) (start_ms end_ms : Int)
    (hmk : env.mkdirOk = true) :
    (∃ ok msg, extract_clip env source_path output_path start_ms end_ms = .ok (ok, msg) ∧
      (ok = false → msg = ffmpegMissingMsg ∨ msg = timeoutMsg ∨
        (∃ t, msg = "FFmpeg error: " ++ t) ∨
        (∃ t, msg = "Error extracting clip: " ++ t))) ∧
    (∃ ok msg clip,
      extract_failure_clip env source_path root_video_dir start_ms end_ms =
        .ok (ok, msg, clip) ∧
      (ok = true → ∃ p, clip = some p) ∧
      (ok = false → clip = none ∧ (msg = ffmpegMissingMsg ∨ msg = timeoutMsg ∨
        (∃ t, msg = "FFmpeg error: " ++ t) ∨
        (∃ t, msg = "Error extracting clip: " ++ t)))) := by
  refine ⟨extract_clip_classified env source_path output_path start_ms end_ms hmk, ?_⟩
  obtain ⟨ok, msg, hEq, himp⟩ := extract_clip_classified env source_path
    (resolve_output_path env.existingFiles (get_failures_dir root_video_dir)
      (get_failures_dir root_video_dir ++ "/" ++
        generate_clip_filename source_path start_ms end_ms)) start_ms end_ms hmk
  unfold extract_failure_clip
  rw [if_neg (by simp [hmk])]
  cases ok with
  | true =>
    simp only [hEq]
    exact ⟨_, _, _, rfl, fun _ => ⟨_, rfl⟩, by simp⟩
  | false =>
    simp only [hEq]
    exact ⟨_, _, _, rfl, by simp, fun _ => ⟨rfl, himp rfl⟩⟩

/-- Witness for C6 amended at a concrete working environment. -/
theorem c6_extractor_result_amended_witness :
    (∃ ok msg, extract_clip envOk "/vids/a.mp4" "/out/c.mp4" 0 1000 = .ok (ok, msg) ∧
      (ok = false → msg = ffmpegMissingMsg ∨ msg = timeoutMsg ∨
        (∃ t, msg = "FFmpeg error: " ++ t) ∨
        (∃ t, msg = "Error extracting clip: " ++ t))) ∧
    (∃ ok msg clip,
      extract_failure_clip envOk "/vids/a.mp4" "/vids" 0 1000 = .ok (ok, msg, clip) ∧
      (ok = true → ∃ p, clip = some p) ∧
      (ok = false → clip = none ∧ (msg = ffmpegMissingMsg ∨ msg = timeoutMsg ∨
        (∃ t, msg = "FFmpeg error: " ++ t) ∨
        (∃ t, msg = "Error extracting clip: " ++ t)))) :=
  c6_extractor_result_amended envOk "/vids/a.mp4" "/out/c.mp4" "/vids" 0 1000 rfl

/-- C7 code bug: the uncertain handler calls write_uncertain with the
video and the note, but write_uncertain accepts only the video, so the
call raises TypeError and no entry reaches the ledger; the claim records
the evident intent (note discarded, uncertain entry appended). -/
theorem c7_uncertain_note_typeerror :
    mark_uncertain stNormal "looks odd" true = .error .typeError ∧
    mark_uncertain stNormal "looks odd" true ≠
      .ok (next_video
        { stNormal with rows := write_uncertain stNormal.rows stNormal.current_video }) := by
  refine ⟨rfl, fun h => ?_⟩
  exact Except.noConfusion h

/-- C8: the collision loop never hands back a name that already exists,
and extracting twice with the same derived base name yields two distinct
files, the second carrying the numeric suffix. -/
theorem c8_no_silent_overwrite :
    (∀ (existing : List String) (failures_dir output_path0 : String),
      resolve_output_path existing failures_dir output_path0 ∉ existing) ∧
    extract_failure_clip envOk "/vids/a.mp4" "/vids" 0 5000 =
      .ok (true, "Clip saved to: /vids/_failures/a_fail_0s-5s.mp4",
        some "/vids/_failures/a_fail_0s-5s.mp4") ∧
    extract_failure_clip envCollide "/vids/a.mp4" "/vids" 0 5000 =
      .ok (true, "Clip saved to: /vids/_failures/a_fail_0s-5s_1.mp4",
        some "/vids/_failures/a_fail_0s-5s_1.mp4") :=
  ⟨resolve_output_path_not_mem, rfl, rfl⟩

/-- C9: for an existing directory root the scan result is sorted, is
independent of the filesystem iteration order, and contains exactly the
absolute paths of walked files that have no reserved-name directory
component at any depth and whose suffix matches the allow-list
case-insensitively. -/
theorem c9_scan_directory (env : ScanEnv) (root_path : String)
    (hex : env.rootExists = true) (hdir : env.rootIsDir = true) :
    List.Sorted pyStrLe (scan_directory env root_path) ∧
    (∀ walk2 : List FileRec, env.walk.Perm walk2 →
      scan_directory env root_path = scan_directory { env with walk := walk2 } root_path) ∧
    (∀ p : String, p ∈ scan_directory env root_path ↔
      ∃ f ∈ env.walk, f.dirs.contains FAILURES_DIR = false ∧
        is_video_file (file_path root_path f) = true ∧ p = file_path root_path f) := by
  have hguard : ¬ (¬ env.rootExists ∨ ¬ env.rootIsDir) := by simp [hex, hdir]
  refine ⟨?_, ?_, ?_⟩
  · rw [scan_directory, if_neg hguard]
    exact List.sorted_insertionSort pyStrLe _
  · intro walk2 hperm
    rw [scan_directory, if_neg hguard, scan_directory, if_neg (by simp [hex, hdir])]
    refine List.eq_of_perm_of_sorted ?_ (List.sorted_insertionSort _ _)
      (List.sorted_insertionSort _ _)
    exact ((List.perm_insertionSort _ _).trans ((hperm.filter _).map _)).trans
      (List.perm_insertionSort _ _).symm
  · intro p
    rw [scan_directory, if_neg hguard]
    rw [List.Perm.mem_iff (List.perm_insertionSort _ _)]
    simp only [List.mem_map, List.mem_filter, Bool.and_eq_true, Bool.not_eq_true']
    constructor
    · rintro ⟨f, ⟨hf, hpr, hv⟩, rfl⟩
      exact ⟨f, hf, hpr, hv, rfl⟩
    · rintro ⟨f, hf, hpr, hv, rfl⟩
      exact ⟨f, ⟨hf, hpr, hv⟩, rfl⟩

/-- Witness for C9 on a sample walk holding an uppercase extension, a
nested video, a file under the reserved directory and a non-video file. -/
theorem c9_scan_directory_witness :
    List.Sorted pyStrLe (scan_directory scanEnvW "/vids") ∧
    (∀ walk2 : List FileRec, scanEnvW.walk.Perm walk2 →
      scan_directory scanEnvW "/vids" = scan_directory { scanEnvW with walk := walk2 } "/vids") ∧
    (∀ p : String, p ∈ scan_directory scanEnvW "/vids" ↔
      ∃ f ∈ scanEnvW.walk, f.dirs.contains FAILURES_DIR = false ∧
        is_video_file (file_path "/vids" f) = true ∧ p = file_path "/vids" f) :=
  c9_scan_directory scanEnvW "/vids" rfl rfl

/-- C10: a missing or non-directory root scans to the empty list rather
than raising, and the session queue filtered from that result is empty. -/
theorem c10_missing_root (env : ScanEnv) (root_path : String) (labeled : Finset String)
    (h : env.rootExists = false ∨ env.rootIsDir = false) :
    scan_directory env root_path = [] ∧
    filter_unlabeled (scan_directory env root_path) labeled = [] := by
  have hguard : ¬ env.rootExists ∨ ¬ env.rootIsDir := by
    rcases h with h | h <;> simp [h]
  rw [scan_directory, if_pos hguard]
  exact ⟨rfl, rfl⟩

/-- Witness for C10 on a nonexistent root. -/
theorem c10_missing_root_witness :
    scan_directory { rootExists := false, rootIsDir := true, walk := [] } "/nope" = [] ∧
    filter_unlabeled
      (scan_directory { rootExists := false, rootIsDir := true, walk := [] } "/nope") ∅ = [] :=
  c10_missing_root { rootExists := false, rootIsDir := true, walk := [] } "/nope" ∅ (Or.inl rfl)

end Videocutter
